import Mathlib

/-!
Shallow embedding of the `keyboard_madness` Rust library (src/lib.rs).

Conventions of the embedding:
* Rust strings are embedded as `List Char`; `str::split(',')` becomes
  `splitComma`, which, like Rust, yields `[[]]` on the empty string.
* `usize` values are embedded as `Nat`; the arithmetic of `Add::add` /
  `Sub::sub` on `usize` is embedded with the two's-complement wrapping
  semantics of release builds, i.e. explicitly modulo `2 ^ 64`
  (`usizeAdd`, `usizeSub`).  (Debug builds would instead panic on
  overflow; the wrapping semantics is the defined behaviour of the
  shipped binary.)
* `as i32` casts are embedded by `i32OfUsize` (truncation to 32 bits,
  reinterpreted as a signed value in `Int`).
* Array indexing `self.keyboard_layout[y][x]`, which panics when out of
  bounds, is embedded via `Option` (`getKey`); consequently `execute`
  and `run` return `Option Keyboard`, `none` standing for a panic.
* Methods taking `&mut self` that the claims need frame properties for
  (`find_position`, `generate_instructions`) are embedded in
  state-passing style, returning the updated `Keyboard` next to their
  result.
* The `HashMap<char, Position>` of `generate_instructions` is embedded
  as an association list with the same vacant-entry insertion check;
  only `get`/vacancy are ever used, so the representation is faithful.
* The `\d` of the token regex is Unicode-aware in the `regex` crate
  (`\p{Nd}`); it is embedded by `isNd` over the decimal-number ranges
  of Unicode 14.0.0 (`ndRanges`).  `str::parse::<usize>`, by contrast,
  accepts only ASCII digits, so a token such as `L:` followed by a
  non-ASCII decimal digit matches the regex but fails the parse and
  falls back to count 1 (`parseCount` keeps the ASCII check).
-/

namespace KeyboardMadness

/-- `type Position = (usize, usize)`. -/
abbrev Position := Nat × Nat

/-- The modulus of `usize` arithmetic (64-bit targets). -/
def USIZE : Nat := 2 ^ 64

/-- `usize` addition with release-build wrapping semantics. -/
def usizeAdd (a b : Nat) : Nat := (a + b) % USIZE

/-- `usize` subtraction with release-build wrapping semantics
(for `a, b < 2^64` this is `(a - b) mod 2^64` over the integers). -/
def usizeSub (a b : Nat) : Nat := (a + (USIZE - b % USIZE)) % USIZE

/-- The `as i32` cast from `usize`: truncate to 32 bits and
reinterpret as signed. -/
def i32OfUsize (a : Nat) : Int :=
  let r : Nat := a % 2 ^ 32
  if r < 2 ^ 31 then (r : Int) else (r : Int) - 2 ^ 32

/-- `pub const KEYS: KeyboardLayout`, the 4 × 10 reference grid. -/
def KEYS : List (List Char) :=
  [ ['1', '2', '3', '4', '5', '6', '7', '8', '9', '0'],
    ['Q', 'W', 'E', 'R', 'T', 'Y', 'U', 'I', 'O', 'P'],
    ['A', 'S', 'D', 'F', 'G', 'H', 'J', 'K', 'L', ';'],
    ['Z', 'X', 'C', 'V', 'B', 'N', 'M', ',', '.', '?'] ]

/-- `enum Instruction`. -/
inductive Instruction where
  | Left (n : Nat)
  | Up (n : Nat)
  | Right (n : Nat)
  | Down (n : Nat)
  | Space
  | NewLine
  | Select
  | Unknown
  deriving DecidableEq, Repr

/-- The alternation `(L|R|U|D|S|_|N)` of the token regex. -/
def isCode (c : Char) : Bool :=
  c = 'L' || c = 'R' || c = 'U' || c = 'D' || c = 'S' || c = '_' || c = 'N'

/-- The code point ranges of the Unicode category `Nd` (decimal
number), Unicode 14.0.0: the character class the `regex` crate uses
for `\d`.  Each range is inclusive. -/
def ndRanges : List (Nat × Nat) :=
  [ (0x30, 0x39), (0x660, 0x669), (0x6f0, 0x6f9), (0x7c0, 0x7c9),
    (0x966, 0x96f), (0x9e6, 0x9ef), (0xa66, 0xa6f), (0xae6, 0xaef),
    (0xb66, 0xb6f), (0xbe6, 0xbef), (0xc66, 0xc6f), (0xce6, 0xcef),
    (0xd66, 0xd6f), (0xde6, 0xdef), (0xe50, 0xe59), (0xed0, 0xed9),
    (0xf20, 0xf29), (0x1040, 0x1049), (0x1090, 0x1099), (0x17e0, 0x17e9),
    (0x1810, 0x1819), (0x1946, 0x194f), (0x19d0, 0x19d9), (0x1a80, 0x1a89),
    (0x1a90, 0x1a99), (0x1b50, 0x1b59), (0x1bb0, 0x1bb9), (0x1c40, 0x1c49),
    (0x1c50, 0x1c59), (0xa620, 0xa629), (0xa8d0, 0xa8d9), (0xa900, 0xa909),
    (0xa9d0, 0xa9d9), (0xa9f0, 0xa9f9), (0xaa50, 0xaa59), (0xabf0, 0xabf9),
    (0xff10, 0xff19), (0x104a0, 0x104a9), (0x10d30, 0x10d39),
    (0x11066, 0x1106f), (0x110f0, 0x110f9), (0x11136, 0x1113f),
    (0x111d0, 0x111d9), (0x112f0, 0x112f9), (0x11450, 0x11459),
    (0x114d0, 0x114d9), (0x11650, 0x11659), (0x116c0, 0x116c9),
    (0x11730, 0x11739), (0x118e0, 0x118e9), (0x11950, 0x11959),
    (0x11c50, 0x11c59), (0x11d50, 0x11d59), (0x11da0, 0x11da9),
    (0x16a60, 0x16a69), (0x16ac0, 0x16ac9), (0x16b50, 0x16b59),
    (0x1d7ce, 0x1d7ff), (0x1e140, 0x1e149), (0x1e2f0, 0x1e2f9),
    (0x1e950, 0x1e959), (0x1fbf0, 0x1fbf9) ]

/-- The regex character class `\d` (Unicode `\p{Nd}`). -/
def isNd (c : Char) : Bool :=
  ndRanges.any fun r => decide (r.1 ≤ c.toNat ∧ c.toNat ≤ r.2)

/-- Value of a decimal digit string (used to embed `str::parse::<usize>`
on strings that the regex has already constrained to `\d*`). -/
def digitsToNat (ds : List Char) : Nat :=
  ds.foldl (fun acc c => acc * 10 + (c.toNat - 48)) 0

/-- `str::parse::<usize>`: fails (`none`) on the empty string, on any
non-ASCII-digit character (the parse accepts only `0`-`9`, unlike the
regex's `\d`), and on overflow past `usize::MAX`. -/
def parseCount (ds : List Char) : Option Nat :=
  if ds.isEmpty then none
  else if ds.all Char.isDigit then
    let n := digitsToNat ds
    if n < USIZE then some n else none
  else none

/-- The `match instruction { ... }` arm of `From<&str> for Instruction`. -/
def codeToInstr (c : Char) (count : Nat) : Instruction :=
  match c with
  | 'L' => .Left count
  | 'R' => .Right count
  | 'U' => .Up count
  | 'D' => .Down count
  | '_' => .Space
  | 'N' => .NewLine
  | 'S' => .Select
  | _ => .Unknown

/-- `impl From<&str> for Instruction`: match the token against
`^(?P<instruction>L|R|U|D|S|_|N)(:(?P<count>\d*))?$`; on no match yield
`Unknown`; otherwise the count capture, when present, is parsed with
`parse().unwrap_or(1)`, and when absent defaults to `1`. -/
def instructionFrom (s : List Char) : Instruction :=
  match s with
  | [c] => if isCode c then codeToInstr c 1 else .Unknown
  | c :: ':' :: rest =>
    if isCode c && rest.all isNd then
      codeToInstr c ((parseCount rest).getD 1)
    else .Unknown
  | _ => .Unknown

/-- `pub struct Keyboard`. -/
structure Keyboard where
  keyboard_layout : List (List Char)
  position : Position
  selected_keys : List Char
  deriving DecidableEq, Repr

/-- `impl fmt::Display for Keyboard`: the rendered output is the
selected keys in insertion order. -/
def render (k : Keyboard) : List Char := k.selected_keys

/-- `pub fn update_position`. -/
def update_position (k : Keyboard) (p : Position) : Keyboard :=
  { k with position := (p.1 % 10, p.2 % 4) }

/-- `fn selected_key`: `self.selected_keys.push(key)`. -/
def selected_key (k : Keyboard) (key : Char) : Keyboard :=
  { k with selected_keys := k.selected_keys ++ [key] }

/-- The panicking indexing `layout[y][x]`, as an `Option`. -/
def getKey (layout : List (List Char)) (y x : Nat) : Option Char :=
  (layout.get? y).bind fun row => row.get? x

/-- `fn execute`; `none` embeds the out-of-bounds panic of
`self.keyboard_layout[y][x]` in the `Select` arm. -/
def execute (k : Keyboard) (i : Instruction) : Option Keyboard :=
  let x := k.position.1
  let y := k.position.2
  match i with
  | .Left count => some (update_position k (usizeSub x count, y))
  | .Up count => some (update_position k (x, usizeSub y count))
  | .Right count => some (update_position k (usizeAdd x count, y))
  | .Down count => some (update_position k (x, usizeAdd y count))
  | .Space => some (selected_key k ' ')
  | .NewLine => some (selected_key k '\n')
  | .Select => (getKey k.keyboard_layout y x).map (selected_key k)
  | .Unknown => some k

/-- `str::split(',')` (on the empty string this yields one empty
token, as in Rust). -/
def splitComma : List Char → List (List Char)
  | [] => [[]]
  | c :: cs =>
    if c = ',' then [] :: splitComma cs
    else
      match splitComma cs with
      | t :: ts => (c :: t) :: ts
      | [] => [[c]]

/-- Sequential execution of a token list (the `for_each` of `run`). -/
def execTokens (k : Keyboard) (ts : List (List Char)) : Option Keyboard :=
  ts.foldlM (fun k t => execute k (instructionFrom t)) k

/-- `pub fn run`: split on `,`, parse each token, execute in order. -/
def run (k : Keyboard) (instructions : List Char) : Option Keyboard :=
  execTokens k (splitComma instructions)

/-- `pub fn clear`: `self.selected_keys.truncate(0)`. -/
def clear (k : Keyboard) : Keyboard :=
  { k with selected_keys := [] }

/-- `row.iter().position(|&ch| ch == key)`. -/
def rowPosition (key : Char) : List Char → Option Nat
  | [] => none
  | c :: cs => if c = key then some 0 else (rowPosition key cs).map (· + 1)

/-- The row loop of `find_position`: scan rows in order, returning the
first `(x, y)` whose row contains `key`. -/
def find_position_rows (key : Char) : List (List Char) → Option Position
  | [] => none
  | row :: rest =>
    match rowPosition key row with
    | some x => some (x, 0)
    | none => (find_position_rows key rest).map fun p => (p.1, p.2 + 1)

/-- `fn find_position` (`&mut self`, embedded state-passing; its body
only reads `self.keyboard_layout`). -/
def find_position (k : Keyboard) (key : Char) : Option Position × Keyboard :=
  (find_position_rows key k.keyboard_layout, k)

/-- The first loop of `generate_instructions`: build the
`char_positions` map, inserting a binding only when the entry is vacant
and `find_position` succeeds.  The keyboard is threaded through the
`find_position` calls. -/
def buildCharPositions :
    Keyboard → List (Char × Position) → List Char →
    List (Char × Position) × Keyboard
  | k, m, [] => (m, k)
  | k, m, ch :: rest =>
    if (m.lookup ch).isSome then buildCharPositions k m rest
    else
      match find_position k ch with
      | (some pos, k1) => buildCharPositions k1 ((ch, pos) :: m) rest
      | (none, k1) => buildCharPositions k1 m rest

/-- `'0' + n` for a digit value `n`. -/
def digitChar (n : Nat) : Char := Char.ofNat (48 + n)

/-- Decimal-rendering loop, structurally recursive on a fuel bound
(`n` itself strictly decreases through `n / 10`, so any fuel above `n`
is enough). -/
def natReprLoop : Nat → Nat → List Char → List Char
  | 0, _, acc => acc
  | fuel + 1, n, acc =>
    if n < 10 then digitChar n :: acc
    else natReprLoop fuel (n / 10) (digitChar (n % 10) :: acc)

/-- Decimal rendering of a `Nat` (the `format!("{}", n)` of the
emitted counts). -/
def natRepr (n : Nat) : List Char := natReprLoop (n + 1) n []

/-- `target.0 as i32 - position.0 as i32`. -/
def dxOf (p t : Position) : Int := i32OfUsize t.1 - i32OfUsize p.1

/-- `target.1 as i32 - position.1 as i32`. -/
def dyOf (p t : Position) : Int := i32OfUsize t.2 - i32OfUsize p.2

/-- The move tokens pushed for one character: `R:{dx},` / `L:{-dx},`
by `dx.cmp(&0)`, then `D:{dy},` / `U:{-dy},` by `dy.cmp(&0)`, with
`dx`, `dy` computed in `i32` and the `Less` arms using `.abs()`. -/
def moveStr (p t : Position) : List Char :=
  (if 0 < dxOf p t then 'R' :: ':' :: (natRepr (dxOf p t).toNat ++ [','])
   else if dxOf p t < 0 then 'L' :: ':' :: (natRepr (dxOf p t).natAbs ++ [','])
   else [])
  ++
  (if 0 < dyOf p t then 'D' :: ':' :: (natRepr (dyOf p t).toNat ++ [','])
   else if dyOf p t < 0 then 'U' :: ':' :: (natRepr (dyOf p t).natAbs ++ [','])
   else [])

/-- The second loop of `generate_instructions`: walk the text pushing
`_,` for a space, `N,` for a newline, and for a character found in the
map the move tokens, `S,`, and the cursor update; characters absent
from the map contribute nothing. -/
def genLoop (m : List (Char × Position)) : Position → List Char → List Char
  | _, [] => []
  | pos, ch :: rest =>
    if ch = ' ' then '_' :: ',' :: genLoop m pos rest
    else if ch = '\n' then 'N' :: ',' :: genLoop m pos rest
    else
      match m.lookup ch with
      | some target => moveStr pos target ++ 'S' :: ',' :: genLoop m target rest
      | none => genLoop m pos rest

/-- `pub fn generate_instructions` (`&mut self`, embedded
state-passing): snapshot the position into a local, build the map,
emit tokens, and `pop()` the trailing comma (`dropLast` is a no-op on
the empty string, as `String::pop` is). -/
def generate_instructions (k : Keyboard) (text : List Char) :
    List Char × Keyboard :=
  let position := k.position
  let mk := buildCharPositions k [] text
  ((genLoop mk.1 position text).dropLast, mk.2)

/-!
Proof infrastructure: token-list views of the synthesizer output and a
decidable statement of the token grammar.  These are not part of the
source embedding; they exist to state and prove the lemmas below.
-/

/-- The token regex `^(L|R|U|D|S|_|N)(:(\d*))?$` as a Boolean matcher
(note `\d*`: the digit string after the colon may be empty, and `\d`
is the Unicode class `isNd`). -/
def matchesToken (s : List Char) : Bool :=
  match s with
  | [c] => isCode c
  | c :: ':' :: rest => isCode c && rest.all isNd
  | _ => false

/-- The horizontal move token (if any) emitted for one character, as a
token list. -/
def hMoveTokens (p t : Position) : List (List Char) :=
  if 0 < dxOf p t then ['R' :: ':' :: natRepr (dxOf p t).toNat]
  else if dxOf p t < 0 then ['L' :: ':' :: natRepr (dxOf p t).natAbs]
  else []

/-- The vertical move token (if any) emitted for one character, as a
token list. -/
def vMoveTokens (p t : Position) : List (List Char) :=
  if 0 < dyOf p t then ['D' :: ':' :: natRepr (dyOf p t).toNat]
  else if dyOf p t < 0 then ['U' :: ':' :: natRepr (dyOf p t).natAbs]
  else []

/-- All move tokens emitted for one character. -/
def moveTokens (p t : Position) : List (List Char) :=
  hMoveTokens p t ++ vMoveTokens p t

/-- Token-list view of `genLoop`. -/
def tokensOf (m : List (Char × Position)) : Position → List Char → List (List Char)
  | _, [] => []
  | pos, ch :: rest =>
    if ch = ' ' then ['_'] :: tokensOf m pos rest
    else if ch = '\n' then ['N'] :: tokensOf m pos rest
    else
      match m.lookup ch with
      | some target => moveTokens pos target ++ ['S'] :: tokensOf m target rest
      | none => tokensOf m pos rest

/-- Join a token list with a `,` after every token (the shape `genLoop`
produces before the final `pop`). -/
def joinTrail : List (List Char) → List Char
  | [] => []
  | t :: ts => t ++ ',' :: joinTrail ts

/-- Join a token list with `,` separators and no trailing separator. -/
def joinSep : List (List Char) → List Char
  | [] => []
  | [t] => t
  | t :: t2 :: ts => t ++ ',' :: joinSep (t2 :: ts)

/-! ### Parsing lemmas -/

theorem instructionFrom_nil : instructionFrom [] = .Unknown := rfl

theorem instructionFrom_single (c : Char) :
    instructionFrom [c] = if isCode c then codeToInstr c 1 else .Unknown := rfl

theorem instructionFrom_colon (c : Char) (rest : List Char) :
    instructionFrom (c :: ':' :: rest) =
      (if isCode c && rest.all isNd then
        codeToInstr c ((parseCount rest).getD 1)
      else .Unknown) := rfl

theorem instructionFrom_other (c c2 : Char) (rest : List Char) (h : c2 ≠ ':') :
    instructionFrom (c :: c2 :: rest) = .Unknown := by
  unfold instructionFrom
  split
  · rename_i heq; simp at heq
  · rename_i heq
    obtain ⟨-, h2⟩ := List.cons.inj heq
    obtain ⟨h3, -⟩ := List.cons.inj h2
    exact absurd h3 h
  · rfl

theorem executeUnknown (k : Keyboard) : execute k .Unknown = some k := rfl

theorem isDigit_isNd {c : Char} (h : c.isDigit = true) : isNd c = true := by
  have hb : 48 ≤ c.toNat ∧ c.toNat ≤ 57 := by
    simp [Char.isDigit] at h
    exact h
  rw [isNd, List.any_eq_true]
  refine ⟨(0x30, 0x39), by simp [ndRanges], ?_⟩
  simpa using hb

theorem all_isDigit_all_isNd {ds : List Char} (h : ds.all Char.isDigit = true) :
    ds.all isNd = true := by
  rw [List.all_eq_true] at h ⊢
  exact fun c hc => isDigit_isNd (h c hc)

/-! ### Decimal rendering lemmas -/

theorem natRepr_of_lt {n : Nat} (h : n < 10) : natRepr n = [digitChar n] := by
  simp [natRepr, natReprLoop, h]

theorem natReprLoop_eq :
    ∀ n fuel acc, n < fuel → natReprLoop fuel n acc = natRepr n ++ acc := by
  intro n
  induction n using Nat.strong_induction_on with
  | _ n ih =>
    intro fuel acc hf
    cases fuel with
    | zero => omega
    | succ fuel =>
      by_cases h : n < 10
      · simp [natReprLoop, h, natRepr_of_lt h]
      · have hdiv : n / 10 < n := Nat.div_lt_self (by omega) (by omega)
        have h2 : natRepr n = natRepr (n / 10) ++ [digitChar (n % 10)] := by
          have hstep : natRepr n = natReprLoop n (n / 10) [digitChar (n % 10)] := by
            simp [natRepr, natReprLoop, h]
          rw [hstep, ih (n / 10) hdiv n [digitChar (n % 10)] (by omega)]
        calc natReprLoop (fuel + 1) n acc
            = natReprLoop fuel (n / 10) (digitChar (n % 10) :: acc) := by
              simp [natReprLoop, h]
          _ = natRepr (n / 10) ++ (digitChar (n % 10) :: acc) :=
              ih (n / 10) hdiv fuel _ (by omega)
          _ = natRepr n ++ acc := by rw [h2]; simp

theorem natRepr_of_ge {n : Nat} (h : ¬ n < 10) :
    natRepr n = natRepr (n / 10) ++ [digitChar (n % 10)] := by
  have hdiv : n / 10 < n := Nat.div_lt_self (by omega) (by omega)
  have hstep : natRepr n = natReprLoop n (n / 10) [digitChar (n % 10)] := by
    simp [natRepr, natReprLoop, h]
  rw [hstep, natReprLoop_eq (n / 10) n [digitChar (n % 10)] hdiv]

theorem digitChar_isDigit {n : Nat} (h : n < 10) : (digitChar n).isDigit = true := by
  have hall : ∀ m, m < 10 → (digitChar m).isDigit = true := by decide
  exact hall n h

theorem natRepr_isDigit : ∀ n, ∀ c ∈ natRepr n, c.isDigit = true := by
  intro n
  induction n using Nat.strong_induction_on with
  | _ n ih =>
    intro c hc
    by_cases h : n < 10
    · rw [natRepr_of_lt h] at hc
      simp at hc
      subst hc
      exact digitChar_isDigit h
    · rw [natRepr_of_ge h] at hc
      rcases List.mem_append.mp hc with h1 | h1
      · exact ih (n / 10) (Nat.div_lt_self (by omega) (by omega)) c h1
      · simp at h1
        subst h1
        exact digitChar_isDigit (by omega)

theorem natRepr_no_comma (n : Nat) : ',' ∉ natRepr n := by
  intro hmem
  have := natRepr_isDigit n ',' hmem
  simp [Char.isDigit] at this

theorem instructionFrom_R {n : Nat} (h : n < 10) :
    instructionFrom ('R' :: ':' :: natRepr n) = .Right n := by
  have hall : ∀ m, m < 10 → instructionFrom ('R' :: ':' :: natRepr m) = .Right m := by
    decide
  exact hall n h

theorem instructionFrom_L {n : Nat} (h : n < 10) :
    instructionFrom ('L' :: ':' :: natRepr n) = .Left n := by
  have hall : ∀ m, m < 10 → instructionFrom ('L' :: ':' :: natRepr m) = .Left m := by
    decide
  exact hall n h

theorem instructionFrom_U {n : Nat} (h : n < 10) :
    instructionFrom ('U' :: ':' :: natRepr n) = .Up n := by
  have hall : ∀ m, m < 10 → instructionFrom ('U' :: ':' :: natRepr m) = .Up m := by
    decide
  exact hall n h

theorem instructionFrom_D {n : Nat} (h : n < 10) :
    instructionFrom ('D' :: ':' :: natRepr n) = .Down n := by
  have hall : ∀ m, m < 10 → instructionFrom ('D' :: ':' :: natRepr m) = .Down m := by
    decide
  exact hall n h

/-! ### Splitting and joining lemmas -/

theorem splitComma_no_comma (t : List Char) (h : ',' ∉ t) : splitComma t = [t] := by
  induction t with
  | nil => rfl
  | cons c cs ih =>
    have hc : c ≠ ',' := fun he => h (he ▸ List.mem_cons_self c cs)
    have hcs : ',' ∉ cs := fun hm => h (List.mem_cons_of_mem c hm)
    simp [splitComma, hc, ih hcs]

theorem splitComma_append (t s : List Char) (h : ',' ∉ t) :
    splitComma (t ++ ',' :: s) = t :: splitComma s := by
  induction t with
  | nil => simp [splitComma]
  | cons c cs ih =>
    have hc : c ≠ ',' := fun he => h (he ▸ List.mem_cons_self c cs)
    have hcs : ',' ∉ cs := fun hm => h (List.mem_cons_of_mem c hm)
    simp [splitComma, hc, ih hcs]

theorem joinTrail_append (as bs : List (List Char)) :
    joinTrail (as ++ bs) = joinTrail as ++ joinTrail bs := by
  induction as with
  | nil => rfl
  | cons t ts ih => simp [joinTrail, ih]

theorem dropLast_append_of_ne_nil (l1 l2 : List Char) (h : l2 ≠ []) :
    (l1 ++ l2).dropLast = l1 ++ l2.dropLast := by
  induction l1 with
  | nil => rfl
  | cons a l1 ih =>
    cases h2 : l1 ++ l2 with
    | nil =>
      rcases List.append_eq_nil.mp h2 with ⟨-, h4⟩
      exact absurd h4 h
    | cons y ys =>
      simp only [List.cons_append, h2, List.dropLast_cons₂]
      rw [← h2, ih]

theorem joinTrail_dropLast (ts : List (List Char)) (h : ts ≠ []) :
    (joinTrail ts).dropLast = joinSep ts := by
  induction ts with
  | nil => exact absurd rfl h
  | cons t ts ih =>
    cases ts with
    | nil => simp [joinTrail, joinSep]
    | cons t2 ts2 =>
      have hne : joinTrail (t2 :: ts2) ≠ [] := by simp [joinTrail]
      calc (joinTrail (t :: t2 :: ts2)).dropLast
          = (t ++ ',' :: joinTrail (t2 :: ts2)).dropLast := rfl
        _ = t ++ (',' :: joinTrail (t2 :: ts2)).dropLast :=
            dropLast_append_of_ne_nil t _ (by simp)
        _ = t ++ ',' :: (joinTrail (t2 :: ts2)).dropLast := by
            rw [List.dropLast_cons_of_ne_nil hne]
        _ = t ++ ',' :: joinSep (t2 :: ts2) := by rw [ih (by simp)]
        _ = joinSep (t :: t2 :: ts2) := rfl

theorem splitComma_joinSep (ts : List (List Char)) (h : ∀ t ∈ ts, ',' ∉ t)
    (hne : ts ≠ []) : splitComma (joinSep ts) = ts := by
  induction ts with
  | nil => exact absurd rfl hne
  | cons t ts ih =>
    cases ts with
    | nil => exact splitComma_no_comma t (h t (by simp))
    | cons t2 ts2 =>
      have h1 : ',' ∉ t := h t (by simp)
      calc splitComma (joinSep (t :: t2 :: ts2))
          = splitComma (t ++ ',' :: joinSep (t2 :: ts2)) := rfl
        _ = t :: splitComma (joinSep (t2 :: ts2)) := splitComma_append _ _ h1
        _ = t :: t2 :: ts2 := by
            rw [ih (fun u hu => h u (List.mem_cons_of_mem t hu)) (by simp)]

/-! ### Execution lemmas -/

theorem execTokens_nil (k : Keyboard) : execTokens k [] = some k := rfl

theorem execTokens_cons (k : Keyboard) (t : List Char) (ts : List (List Char)) :
    execTokens k (t :: ts) =
      (execute k (instructionFrom t)).bind fun k1 => execTokens k1 ts := by
  cases h : execute k (instructionFrom t) with
  | none => simp [execTokens, List.foldlM, h]
  | some k1 => simp [execTokens, List.foldlM, h]

theorem execTokens_append (k : Keyboard) (as bs : List (List Char)) :
    execTokens k (as ++ bs) =
      (execTokens k as).bind fun k1 => execTokens k1 bs := by
  induction as generalizing k with
  | nil => simp [execTokens_nil]
  | cons t ts ih =>
    rw [List.cons_append, execTokens_cons, execTokens_cons]
    cases h : execute k (instructionFrom t) with
    | none => simp
    | some k1 => simp [ih k1]

/-! ### Arithmetic lemmas for the move tokens -/

theorem USIZE_eq : USIZE = 18446744073709551616 := by norm_num [USIZE]

theorem i32OfUsize_small {a : Nat} (h : a < 2 ^ 31) : i32OfUsize a = (a : Int) := by
  have h32 : a % 2 ^ 32 = a := Nat.mod_eq_of_lt (by omega)
  simp only [i32OfUsize, h32]
  rw [if_pos h]

theorem dxOf_small {a b c d : Nat} (ha : a < 10) (hc : c < 10) :
    dxOf (a, b) (c, d) = (c : Int) - (a : Int) := by
  simp [dxOf, i32OfUsize_small (show a < 2 ^ 31 by omega),
    i32OfUsize_small (show c < 2 ^ 31 by omega)]

theorem dyOf_small {a b c d : Nat} (hb : b < 4) (hd : d < 4) :
    dyOf (a, b) (c, d) = (d : Int) - (b : Int) := by
  simp [dyOf, i32OfUsize_small (show b < 2 ^ 31 by omega),
    i32OfUsize_small (show d < 2 ^ 31 by omega)]

theorem execTokens_hMove (L : List (List Char)) (a b c d : Nat) (buf : List Char)
    (ha : a < 10) (hb : b < 4) (hc : c < 10) :
    execTokens ⟨L, (a, b), buf⟩ (hMoveTokens (a, b) (c, d)) =
      some ⟨L, (c, b), buf⟩ := by
  unfold hMoveTokens
  rw [dxOf_small ha hc]
  rcases Nat.lt_trichotomy a c with h | h | h
  · have hpos : (0 : Int) < (c : Int) - (a : Int) := by omega
    have htn : ((c : Int) - (a : Int)).toNat = c - a := by omega
    rw [if_pos hpos, htn, execTokens_cons, instructionFrom_R (by omega : c - a < 10)]
    simp only [execute, update_position, usizeAdd, USIZE_eq, Option.some_bind,
      execTokens_nil, Option.some.injEq, Keyboard.mk.injEq, Prod.mk.injEq,
      eq_self_iff_true, true_and, and_true]
    omega
  · have h1 : ¬ (0 : Int) < (c : Int) - (a : Int) := by omega
    have h2 : ¬ ((c : Int) - (a : Int) < 0) := by omega
    rw [if_neg h1, if_neg h2, execTokens_nil, h]
  · have h1 : ¬ (0 : Int) < (c : Int) - (a : Int) := by omega
    have h2 : (c : Int) - (a : Int) < 0 := by omega
    have htn : ((c : Int) - (a : Int)).natAbs = a - c := by omega
    rw [if_neg h1, if_pos h2, htn, execTokens_cons,
      instructionFrom_L (by omega : a - c < 10)]
    simp only [execute, update_position, usizeSub, USIZE_eq, Option.some_bind,
      execTokens_nil, Option.some.injEq, Keyboard.mk.injEq, Prod.mk.injEq,
      eq_self_iff_true, true_and, and_true]
    omega

theorem execTokens_vMove (L : List (List Char)) (x a b c d : Nat) (buf : List Char)
    (hx : x < 10) (hb : b < 4) (hd : d < 4) :
    execTokens ⟨L, (x, b), buf⟩ (vMoveTokens (a, b) (c, d)) =
      some ⟨L, (x, d), buf⟩ := by
  unfold vMoveTokens
  rw [dyOf_small hb hd]
  rcases Nat.lt_trichotomy b d with h | h | h
  · have hpos : (0 : Int) < (d : Int) - (b : Int) := by omega
    have htn : ((d : Int) - (b : Int)).toNat = d - b := by omega
    rw [if_pos hpos, htn, execTokens_cons, instructionFrom_D (by omega : d - b < 10)]
    simp only [execute, update_position, usizeAdd, USIZE_eq, Option.some_bind,
      execTokens_nil, Option.some.injEq, Keyboard.mk.injEq, Prod.mk.injEq,
      eq_self_iff_true, true_and, and_true]
    omega
  · have h1 : ¬ (0 : Int) < (d : Int) - (b : Int) := by omega
    have h2 : ¬ ((d : Int) - (b : Int) < 0) := by omega
    rw [if_neg h1, if_neg h2, execTokens_nil, h]
  · have h1 : ¬ (0 : Int) < (d : Int) - (b : Int) := by omega
    have h2 : (d : Int) - (b : Int) < 0 := by omega
    have htn : ((d : Int) - (b : Int)).natAbs = b - d := by omega
    rw [if_neg h1, if_pos h2, htn, execTokens_cons,
      instructionFrom_U (by omega : b - d < 10)]
    simp only [execute, update_position, usizeSub, USIZE_eq, Option.some_bind,
      execTokens_nil, Option.some.injEq, Keyboard.mk.injEq, Prod.mk.injEq,
      eq_self_iff_true, true_and, and_true]
    omega

theorem execTokens_moveTokens (L : List (List Char)) (a b c d : Nat)
    (buf : List Char) (ha : a < 10) (hb : b < 4) (hc : c < 10) (hd : d < 4) :
    execTokens ⟨L, (a, b), buf⟩ (moveTokens (a, b) (c, d)) =
      some ⟨L, (c, d), buf⟩ := by
  unfold moveTokens
  rw [execTokens_append, execTokens_hMove L a b c d buf ha hb hc]
  simp only [Option.some_bind]
  exact execTokens_vMove L c a b c d buf hc hb hd

/-! ### The flat synthesizer output as a token list -/

theorem moveStr_eq_joinTrail (p t : Position) :
    moveStr p t = joinTrail (moveTokens p t) := by
  unfold moveStr moveTokens hMoveTokens vMoveTokens
  rw [joinTrail_append]
  congr 1 <;> split_ifs <;> simp [joinTrail]

theorem genLoop_eq_joinTrail (m : List (Char × Position)) :
    ∀ text pos, genLoop m pos text = joinTrail (tokensOf m pos text) := by
  intro text
  induction text with
  | nil => intro pos; rfl
  | cons ch rest ih =>
    intro pos
    by_cases hsp : ch = ' '
    · simp [genLoop, tokensOf, hsp, joinTrail, ih]
    · by_cases hnl : ch = '\n'
      · simp [genLoop, tokensOf, hsp, hnl, joinTrail, ih]
      · cases hl : m.lookup ch with
        | some target =>
          simp [genLoop, tokensOf, hsp, hnl, hl, joinTrail_append, joinTrail,
            ih, moveStr_eq_joinTrail]
        | none => simp [genLoop, tokensOf, hsp, hnl, hl, ih]

theorem moveTokens_no_comma (p t : Position) :
    ∀ u ∈ moveTokens p t, ',' ∉ u := by
  intro u hu
  unfold moveTokens hMoveTokens vMoveTokens at hu
  rcases List.mem_append.mp hu with h | h <;>
    [skip; skip] <;>
    · split_ifs at h <;> simp at h <;>
      · subst h
        intro hc
        simp [List.mem_cons] at hc
        exact natRepr_no_comma _ hc

theorem tokensOf_no_comma (m : List (Char × Position)) :
    ∀ text pos t, t ∈ tokensOf m pos text → ',' ∉ t := by
  intro text
  induction text with
  | nil => intro pos t ht; simp [tokensOf] at ht
  | cons ch rest ih =>
    intro pos t ht
    by_cases hsp : ch = ' '
    · rw [show tokensOf m pos (ch :: rest) = ['_'] :: tokensOf m pos rest from by
        simp [tokensOf, hsp]] at ht
      rcases List.mem_cons.mp ht with h | h
      · subst h; simp
      · exact ih pos t h
    · by_cases hnl : ch = '\n'
      · rw [show tokensOf m pos (ch :: rest) = ['N'] :: tokensOf m pos rest from by
          simp [tokensOf, hsp, hnl]] at ht
        rcases List.mem_cons.mp ht with h | h
        · subst h; simp
        · exact ih pos t h
      · cases hl : m.lookup ch with
        | some target =>
          rw [show tokensOf m pos (ch :: rest) =
              moveTokens pos target ++ ['S'] :: tokensOf m target rest from by
            simp [tokensOf, hsp, hnl, hl]] at ht
          rcases List.mem_append.mp ht with h | h
          · exact moveTokens_no_comma pos target t h
          · rcases List.mem_cons.mp h with h2 | h2
            · subst h2; simp
            · exact ih target t h2
        | none =>
          rw [show tokensOf m pos (ch :: rest) = tokensOf m pos rest from by
            simp [tokensOf, hsp, hnl, hl]] at ht
          exact ih pos t ht

/-! ### First-occurrence lemmas for the grid lookup -/

theorem rowPosition_none_iff (c : Char) (row : List Char) :
    rowPosition c row = none ↔ c ∉ row := by
  induction row with
  | nil => simp [rowPosition]
  | cons a cs ih =>
    by_cases h : a = c
    · subst h
      simp [rowPosition]
    · have h2 : c ≠ a := fun he => h he.symm
      simp [rowPosition, h, ih, h2]

theorem rowPosition_some (c : Char) (row : List Char) :
    ∀ x, rowPosition c row = some x →
      row.get? x = some c ∧ ∀ x1, x1 < x → row.get? x1 ≠ some c := by
  induction row with
  | nil => intro x hx; simp [rowPosition] at hx
  | cons a cs ih =>
    intro x hx
    by_cases h : a = c
    · subst h
      simp [rowPosition] at hx
      subst hx
      exact ⟨rfl, fun x1 h1 => absurd h1 (by omega)⟩
    · simp [rowPosition, h] at hx
      obtain ⟨x0, hx0, rfl⟩ := hx
      obtain ⟨h1, h2⟩ := ih x0 hx0
      refine ⟨h1, ?_⟩
      intro x1 hlt
      cases x1 with
      | zero =>
        simp only [List.get?_cons_zero]
        exact fun he => h (Option.some.inj he)
      | succ x2 =>
        simp only [List.get?_cons_succ]
        exact h2 x2 (by omega)

theorem find_position_rows_none_iff (c : Char) :
    ∀ rows, find_position_rows c rows = none ↔ ∀ row ∈ rows, c ∉ row := by
  intro rows
  induction rows with
  | nil => simp [find_position_rows]
  | cons row rest ih =>
    cases hr : rowPosition c row with
    | some x =>
      have hcr : c ∈ row := by
        by_contra hn
        rw [(rowPosition_none_iff c row).mpr hn] at hr
        exact Option.noConfusion hr
      simp only [find_position_rows, hr]
      constructor
      · intro hcontra
        exact absurd hcontra (by simp)
      · intro hall
        exact absurd hcr (hall row (by simp))
    | none =>
      have hcr : c ∉ row := (rowPosition_none_iff c row).mp hr
      simp [find_position_rows, hr, ih, hcr]

theorem find_position_rows_some (c : Char) :
    ∀ rows x y, find_position_rows c rows = some (x, y) →
      (∃ row, rows.get? y = some row ∧ row.get? x = some c ∧
        ∀ x1, x1 < x → row.get? x1 ≠ some c) ∧
      ∀ y1, y1 < y → ∀ row1, rows.get? y1 = some row1 → c ∉ row1 := by
  intro rows
  induction rows with
  | nil => intro x y h; simp [find_position_rows] at h
  | cons row rest ih =>
    intro x y h
    cases hr : rowPosition c row with
    | some x0 =>
      simp only [find_position_rows, hr, Option.some.injEq, Prod.mk.injEq] at h
      obtain ⟨rfl, rfl⟩ := h
      obtain ⟨h1, h2⟩ := rowPosition_some c row _ hr
      exact ⟨⟨row, rfl, h1, h2⟩, fun y1 hy1 => absurd hy1 (by omega)⟩
    | none =>
      simp only [find_position_rows, hr, Option.map_eq_some'] at h
      obtain ⟨⟨px, py⟩, hp, he⟩ := h
      simp only [Prod.mk.injEq] at he
      obtain ⟨rfl, rfl⟩ := he
      obtain ⟨⟨r, h1, h2, h3⟩, h4⟩ := ih px py hp
      refine ⟨⟨r, by simpa using h1, h2, h3⟩, ?_⟩
      intro y1 hy1 row1 hrow1
      cases y1 with
      | zero =>
        simp only [List.get?_cons_zero, Option.some.injEq] at hrow1
        subst hrow1
        exact (rowPosition_none_iff c row).mp hr
      | succ y2 =>
        simp only [List.get?_cons_succ] at hrow1
        exact h4 y2 (by omega) row1 hrow1

theorem find_position_rows_mem {c : Char} {rows : List (List Char)}
    (h : ∃ row ∈ rows, c ∈ row) : ∃ p, find_position_rows c rows = some p := by
  cases hf : find_position_rows c rows with
  | none =>
    obtain ⟨row, hr, hc⟩ := h
    exact absurd hc ((find_position_rows_none_iff c rows).mp hf row hr)
  | some p => exact ⟨p, rfl⟩

theorem find_position_rows_KEYS (c : Char) (x y : Nat)
    (h : find_position_rows c KEYS = some (x, y)) :
    getKey KEYS y x = some c ∧ x < 10 ∧ y < 4 := by
  obtain ⟨⟨row, h1, h2, -⟩, -⟩ := find_position_rows_some c KEYS x y h
  refine ⟨?_, ?_, ?_⟩
  · unfold getKey
    rw [h1]
    simp only [Option.some_bind]
    exact h2
  · have hx : x < row.length := by
      by_contra hge
      rw [List.get?_eq_none.mpr (by omega)] at h2
      exact Option.noConfusion h2
    have hrow : row ∈ KEYS := List.get?_mem h1
    have hlen : ∀ r ∈ KEYS, r.length = 10 := by decide
    rw [hlen row hrow] at hx
    exact hx
  · have hy : y < KEYS.length := by
      by_contra hge
      rw [List.get?_eq_none.mpr (by omega)] at h1
      exact Option.noConfusion h1
    simpa using hy

/-! ### Lemmas about the char-positions map -/

theorem lookup_cons_ne {c ch : Char} {pos : Position}
    {m : List (Char × Position)} (h : c ≠ ch) :
    ((ch, pos) :: m).lookup c = m.lookup c := by
  have hb : (c == ch) = false := beq_eq_false_iff_ne.mpr h
  simp [List.lookup, hb]

theorem lookup_cons_eq (ch : Char) (pos : Position) (m : List (Char × Position)) :
    ((ch, pos) :: m).lookup ch = some pos := by
  simp [List.lookup]

theorem buildCharPositions_snd :
    ∀ (text : List Char) (k : Keyboard) (m : List (Char × Position)),
      (buildCharPositions k m text).2 = k := by
  intro text
  induction text with
  | nil => intro k m; rfl
  | cons ch rest ih =>
    intro k m
    cases hv : (m.lookup ch).isSome with
    | true =>
      simp only [buildCharPositions, hv, if_true]
      exact ih k m
    | false =>
      cases hf : find_position_rows ch k.keyboard_layout with
      | some pos =>
        simp only [buildCharPositions, hv, Bool.false_eq_true, if_false,
          find_position, hf]
        exact ih k _
      | none =>
        simp only [buildCharPositions, hv, Bool.false_eq_true, if_false,
          find_position, hf]
        exact ih k m

theorem buildCharPositions_mono :
    ∀ (text : List Char) (k : Keyboard) (m : List (Char × Position))
      (c : Char) (p : Position), m.lookup c = some p →
      (buildCharPositions k m text).1.lookup c = some p := by
  intro text
  induction text with
  | nil => intro k m c p h; exact h
  | cons ch rest ih =>
    intro k m c p h
    cases hv : (m.lookup ch).isSome with
    | true =>
      simp only [buildCharPositions, hv, if_true]
      exact ih k m c p h
    | false =>
      cases hf : find_position_rows ch k.keyboard_layout with
      | some pos =>
        simp only [buildCharPositions, hv, Bool.false_eq_true, if_false,
          find_position, hf]
        apply ih
        have hne : c ≠ ch := by
          intro he
          subst he
          rw [h] at hv
          exact Bool.noConfusion hv
        rw [lookup_cons_ne hne]
        exact h
      | none =>
        simp only [buildCharPositions, hv, Bool.false_eq_true, if_false,
          find_position, hf]
        exact ih k m c p h

theorem buildCharPositions_sound :
    ∀ (text : List Char) (k : Keyboard) (m : List (Char × Position)),
      k.keyboard_layout = KEYS →
      (∀ c p, m.lookup c = some p → find_position_rows c KEYS = some p) →
      ∀ c p, (buildCharPositions k m text).1.lookup c = some p →
        find_position_rows c KEYS = some p := by
  intro text
  induction text with
  | nil => intro k m _ hm c p h; exact hm c p h
  | cons ch rest ih =>
    intro k m hL hm c p h
    cases hv : (m.lookup ch).isSome with
    | true =>
      simp only [buildCharPositions, hv, if_true] at h
      exact ih k m hL hm c p h
    | false =>
      cases hf : find_position_rows ch k.keyboard_layout with
      | some pos =>
        simp only [buildCharPositions, hv, Bool.false_eq_true, if_false,
          find_position, hf] at h
        refine ih k _ hL ?_ c p h
        intro c0 q hq
        by_cases hc0 : c0 = ch
        · subst hc0
          rw [lookup_cons_eq] at hq
          rw [← Option.some.inj hq, ← hL]
          exact hf
        · rw [lookup_cons_ne hc0] at hq
          exact hm c0 q hq
      | none =>
        simp only [buildCharPositions, hv, Bool.false_eq_true, if_false,
          find_position, hf] at h
        exact ih k m hL hm c p h

theorem buildCharPositions_complete :
    ∀ (text : List Char) (k : Keyboard) (m : List (Char × Position))
      (c : Char) (p : Position), k.keyboard_layout = KEYS →
      (∀ c0 q, m.lookup c0 = some q → find_position_rows c0 KEYS = some q) →
      c ∈ text → find_position_rows c KEYS = some p →
      (buildCharPositions k m text).1.lookup c = some p := by
  intro text
  induction text with
  | nil => intro k m c p _ _ hmem _; simp at hmem
  | cons ch rest ih =>
    intro k m c p hL hm hmem hfind
    cases hv : (m.lookup ch).isSome with
    | true =>
      simp only [buildCharPositions, hv, if_true]
      rcases List.mem_cons.mp hmem with rfl | hmem2
      · obtain ⟨q, hq⟩ := Option.isSome_iff_exists.mp hv
        have := hm c q hq
        rw [hfind] at this
        rw [← Option.some.inj this] at hq
        exact buildCharPositions_mono rest k m c p hq
      · exact ih k m c p hL hm hmem2 hfind
    | false =>
      cases hf : find_position_rows ch k.keyboard_layout with
      | some pos =>
        simp only [buildCharPositions, hv, Bool.false_eq_true, if_false,
          find_position, hf]
        have hm2 : ∀ c0 q, (((ch, pos) :: m).lookup c0 = some q) →
            find_position_rows c0 KEYS = some q := by
          intro c0 q hq
          by_cases hc0 : c0 = ch
          · subst hc0
            rw [lookup_cons_eq] at hq
            rw [← Option.some.inj hq, ← hL]
            exact hf
          · rw [lookup_cons_ne hc0] at hq
            exact hm c0 q hq
        rcases List.mem_cons.mp hmem with rfl | hmem2
        · have hpp : pos = p := by
            rw [hL] at hf
            rw [hf] at hfind
            exact Option.some.inj hfind
          subst hpp
          exact buildCharPositions_mono rest k _ c pos (lookup_cons_eq c pos m)
        · exact ih k _ c p hL hm2 hmem2 hfind
      | none =>
        simp only [buildCharPositions, hv, Bool.false_eq_true, if_false,
          find_position, hf]
        rcases List.mem_cons.mp hmem with rfl | hmem2
        · rw [hL] at hf
          rw [hf] at hfind
          exact Option.noConfusion hfind
        · exact ih k m c p hL hm hmem2 hfind

/-! ### The main simulation lemma for the round trip -/

theorem execTokens_tokensOf (m : List (Char × Position))
    (hm : ∀ ch x y, m.lookup ch = some (x, y) →
      getKey KEYS y x = some ch ∧ x < 10 ∧ y < 4) :
    ∀ (text : List Char) (a b : Nat) (buf : List Char), a < 10 → b < 4 →
      (∀ ch ∈ text, ch ≠ ' ' → ch ≠ '\n' → (m.lookup ch).isSome = true) →
      ∃ a1 b1, a1 < 10 ∧ b1 < 4 ∧
        execTokens ⟨KEYS, (a, b), buf⟩ (tokensOf m (a, b) text) =
          some ⟨KEYS, (a1, b1), buf ++ text⟩ := by
  intro text
  induction text with
  | nil =>
    intro a b buf ha hb _
    exact ⟨a, b, ha, hb, by simp [tokensOf, execTokens_nil]⟩
  | cons ch rest ih =>
    intro a b buf ha hb htext
    by_cases hsp : ch = ' '
    · subst hsp
      obtain ⟨a1, b1, h1, h2, h3⟩ :=
        ih a b (buf ++ [' ']) ha hb (fun c hc => htext c (by simp [hc]))
      refine ⟨a1, b1, h1, h2, ?_⟩
      rw [show tokensOf m (a, b) (' ' :: rest) = ['_'] :: tokensOf m (a, b) rest
        from by simp [tokensOf]]
      rw [execTokens_cons,
        show execute ⟨KEYS, (a, b), buf⟩ (instructionFrom ['_']) =
          some ⟨KEYS, (a, b), buf ++ [' ']⟩ from rfl]
      simp only [Option.some_bind]
      rw [h3]
      simp
    · by_cases hnl : ch = '\n'
      · subst hnl
        obtain ⟨a1, b1, h1, h2, h3⟩ :=
          ih a b (buf ++ ['\n']) ha hb (fun c hc => htext c (by simp [hc]))
        refine ⟨a1, b1, h1, h2, ?_⟩
        rw [show tokensOf m (a, b) ('\n' :: rest) = ['N'] :: tokensOf m (a, b) rest
          from by simp [tokensOf, hsp]]
        rw [execTokens_cons,
          show execute ⟨KEYS, (a, b), buf⟩ (instructionFrom ['N']) =
            some ⟨KEYS, (a, b), buf ++ ['\n']⟩ from rfl]
        simp only [Option.some_bind]
        rw [h3]
        simp
      · have hs := htext ch (by simp) hsp hnl
        obtain ⟨⟨x, y⟩, hl⟩ := Option.isSome_iff_exists.mp hs
        obtain ⟨hg, hx, hy⟩ := hm ch x y hl
        obtain ⟨a1, b1, h1, h2, h3⟩ :=
          ih x y (buf ++ [ch]) hx hy (fun c hc => htext c (by simp [hc]))
        refine ⟨a1, b1, h1, h2, ?_⟩
        rw [show tokensOf m (a, b) (ch :: rest) =
            moveTokens (a, b) (x, y) ++ ['S'] :: tokensOf m (x, y) rest
          from by simp [tokensOf, hsp, hnl, hl]]
        rw [execTokens_append, execTokens_moveTokens KEYS a b x y buf ha hb hx hy]
        simp only [Option.some_bind]
        rw [execTokens_cons,
          show instructionFrom ['S'] = .Select from rfl]
        rw [show execute ⟨KEYS, (x, y), buf⟩ .Select =
            some ⟨KEYS, (x, y), buf ++ [ch]⟩ from by simp [execute, hg, selected_key]]
        simp only [Option.some_bind]
        rw [h3]
        simp

theorem tokensOf_cons_ne_nil (m : List (Char × Position)) (pos : Position)
    (ch : Char) (rest : List Char)
    (hch : ch = ' ' ∨ ch = '\n' ∨ (m.lookup ch).isSome = true) :
    tokensOf m pos (ch :: rest) ≠ [] := by
  by_cases hsp : ch = ' '
  · simp [tokensOf, hsp]
  · by_cases hnl : ch = '\n'
    · simp [tokensOf, hsp, hnl]
    · rcases hch with h | h | h
      · exact absurd h hsp
      · exact absurd h hnl
      · obtain ⟨target, hl⟩ := Option.isSome_iff_exists.mp h
        rw [show tokensOf m pos (ch :: rest) =
            moveTokens pos target ++ ['S'] :: tokensOf m target rest
          from by simp [tokensOf, hsp, hnl, hl]]
        simp

/-! ### Shared totality lemmas -/

theorem getKey_KEYS_isSome :
    ∀ y, y < 4 → ∀ x, x < 10 → (getKey KEYS y x).isSome = true := by decide

theorem execute_step (k : Keyboard) (i : Instruction)
    (hL : k.keyboard_layout = KEYS)
    (hx : k.position.1 < 10) (hy : k.position.2 < 4) :
    ∃ k1, execute k i = some k1 ∧ k1.keyboard_layout = KEYS ∧
      k1.position.1 < 10 ∧ k1.position.2 < 4 := by
  obtain ⟨L, ⟨x, y⟩, buf⟩ := k
  simp only at hL hx hy
  subst hL
  cases i with
  | Left n => exact ⟨_, rfl, rfl, Nat.mod_lt _ (by omega), Nat.mod_lt _ (by omega)⟩
  | Right n => exact ⟨_, rfl, rfl, Nat.mod_lt _ (by omega), Nat.mod_lt _ (by omega)⟩
  | Up n => exact ⟨_, rfl, rfl, Nat.mod_lt _ (by omega), Nat.mod_lt _ (by omega)⟩
  | Down n => exact ⟨_, rfl, rfl, Nat.mod_lt _ (by omega), Nat.mod_lt _ (by omega)⟩
  | Space => exact ⟨_, rfl, rfl, hx, hy⟩
  | NewLine => exact ⟨_, rfl, rfl, hx, hy⟩
  | Unknown => exact ⟨_, rfl, rfl, hx, hy⟩
  | Select =>
    obtain ⟨c, hc⟩ := Option.isSome_iff_exists.mp (getKey_KEYS_isSome y hy x hx)
    exact ⟨selected_key ⟨KEYS, (x, y), buf⟩ c, by simp [execute, hc], rfl, hx, hy⟩

theorem execTokens_isSome : ∀ (ts : List (List Char)) (k : Keyboard),
    k.keyboard_layout = KEYS → k.position.1 < 10 → k.position.2 < 4 →
    (execTokens k ts).isSome = true := by
  intro ts
  induction ts with
  | nil => intro k _ _ _; rfl
  | cons t ts ih =>
    intro k hL hx hy
    obtain ⟨k1, he, h1, h2, h3⟩ := execute_step k (instructionFrom t) hL hx hy
    rw [execTokens_cons, he]
    simp only [Option.some_bind]
    exact ih k1 h1 h2 h3

/-! ### The claims -/

/-- Claim C1: round trip.  For every text made only of grid characters,
spaces and newlines, and every in-range starting position, running the
interpreter on the instruction string produced by
`generate_instructions` from that position yields an output buffer
equal to the text. -/
theorem synthesize_interpret_round_trip (text : List Char) (p : Position)
    (hx : p.1 < 10) (hy : p.2 < 4)
    (htext : ∀ ch ∈ text, ch = ' ' ∨ ch = '\n' ∨ ∃ row ∈ KEYS, ch ∈ row) :
    ∃ k1, run ⟨KEYS, p, []⟩ (generate_instructions ⟨KEYS, p, []⟩ text).1 = some k1 ∧
      render k1 = text := by
  obtain ⟨a, b⟩ := p
  have ha : a < 10 := hx
  have hb : b < 4 := hy
  cases text with
  | nil => exact ⟨⟨KEYS, (a, b), []⟩, rfl, rfl⟩
  | cons ch rest =>
    have hmnil : ∀ c q, ([] : List (Char × Position)).lookup c = some q →
        find_position_rows c KEYS = some q := by
      intro c q hq
      simp [List.lookup] at hq
    have hsound : ∀ c q,
        (buildCharPositions ⟨KEYS, (a, b), []⟩ [] (ch :: rest)).1.lookup c = some q →
        find_position_rows c KEYS = some q :=
      buildCharPositions_sound (ch :: rest) ⟨KEYS, (a, b), []⟩ [] rfl hmnil
    have hm : ∀ c x y,
        (buildCharPositions ⟨KEYS, (a, b), []⟩ [] (ch :: rest)).1.lookup c = some (x, y) →
        getKey KEYS y x = some c ∧ x < 10 ∧ y < 4 := by
      intro c x y hl
      exact find_position_rows_KEYS c x y (hsound c (x, y) hl)
    have hget : ∀ c ∈ ch :: rest, c ≠ ' ' → c ≠ '\n' →
        ((buildCharPositions ⟨KEYS, (a, b), []⟩ [] (ch :: rest)).1.lookup c).isSome = true := by
      intro c hmem hsp hnl
      rcases htext c hmem with h | h | h
      · exact absurd h hsp
      · exact absurd h hnl
      · obtain ⟨q, hq⟩ := find_position_rows_mem h
        rw [buildCharPositions_complete (ch :: rest) ⟨KEYS, (a, b), []⟩ [] c q rfl
          hmnil hmem hq]
        rfl
    have hts : tokensOf (buildCharPositions ⟨KEYS, (a, b), []⟩ [] (ch :: rest)).1
        (a, b) (ch :: rest) ≠ [] := by
      apply tokensOf_cons_ne_nil
      by_cases hsp : ch = ' '
      · exact Or.inl hsp
      · by_cases hnl : ch = '\n'
        · exact Or.inr (Or.inl hnl)
        · exact Or.inr (Or.inr (hget ch (by simp) hsp hnl))
    have hgen : (generate_instructions ⟨KEYS, (a, b), []⟩ (ch :: rest)).1 =
        (genLoop (buildCharPositions ⟨KEYS, (a, b), []⟩ [] (ch :: rest)).1
          (a, b) (ch :: rest)).dropLast := rfl
    rw [hgen, genLoop_eq_joinTrail, joinTrail_dropLast _ hts]
    unfold run
    rw [splitComma_joinSep _
      (fun t ht => tokensOf_no_comma _ (ch :: rest) (a, b) t ht) hts]
    obtain ⟨a1, b1, h1, h2, h3⟩ :=
      execTokens_tokensOf _ hm (ch :: rest) a b [] ha hb hget
    refine ⟨⟨KEYS, (a1, b1), [] ++ (ch :: rest)⟩, h3, by simp [render]⟩

/-- Witness for C1 at text `HELLO` and starting position `(4, 2)`. -/
theorem synthesize_interpret_round_trip_witness :
    ∃ k1, run ⟨KEYS, (4, 2), []⟩
        (generate_instructions ⟨KEYS, (4, 2), []⟩ (("HELLO").toList)).1 = some k1 ∧
      render k1 = ("HELLO").toList :=
  synthesize_interpret_round_trip (("HELLO").toList) (4, 2) (by decide) (by decide)
    (by decide)

/-- Claim C2 (code bug, evaluation at the failing input): executing
`MoveLeft(1)` from `x = 0` does not land on `x = W - 1 = 9`; the
release-build wrapping subtraction lands on
`x = (2^64 - 1) % 10 = 5` (a debug build would panic instead). -/
theorem moveLeft_underflow_lands_on_five :
    run ⟨KEYS, (0, 0), []⟩ (("L").toList) = some ⟨KEYS, (5, 0), []⟩ ∧
    (run ⟨KEYS, (0, 0), []⟩ (("L").toList)).map (fun k => k.position.1) ≠ some 9 := by
  decide

/-- Claim C3: interpretation is total.  From any in-range starting
state over the reference grid, `run` processes every token of any
instruction string, malformed ones included, and never fails. -/
theorem run_never_fails (instructions : List Char) (k : Keyboard)
    (hL : k.keyboard_layout = KEYS)
    (hx : k.position.1 < 10) (hy : k.position.2 < 4) :
    (run k instructions).isSome = true :=
  execTokens_isSome (splitComma instructions) k hL hx hy

/-- Witness for C3 on the `HELLO` instruction string from `(4, 2)`. -/
theorem run_never_fails_witness :
    (run ⟨KEYS, (4, 2), []⟩ (("R,S,U,L:3,S,D,Bogus,R:6,S,S,U,S").toList)).isSome =
      true :=
  run_never_fails (("R,S,U,L:3,S,D,Bogus,R:6,S,S,U,S").toList) ⟨KEYS, (4, 2), []⟩
    rfl (by decide) (by decide)

/-- Claim C4 (counterexample): a token whose `:COUNT` suffix contains a
non-digit fails the whole regex and parses to `Unknown` (NoOp), not to
the move with count 1 that the claim asserts. -/
theorem nondigit_count_token_yields_noop :
    instructionFrom (("L:x").toList) = Instruction.Unknown ∧
    instructionFrom (("L:x").toList) ≠ Instruction.Left 1 := by decide

/-- Claim C4 (amended): for a token `CODE:DIGITS` with `CODE` in
L/R/U/D whose suffix is a digit string that still fails to parse as a
64-bit unsigned integer — it is empty, or its value overflows — the
parser yields the move with count 1.  (A non-digit suffix instead fails
the regex and yields NoOp.) -/
theorem digit_count_parse_failure_defaults_one (ds : List Char)
    (hdig : ds.all Char.isDigit = true)
    (hfail : ds = [] ∨ USIZE ≤ digitsToNat ds) :
    instructionFrom ('L' :: ':' :: ds) = Instruction.Left 1 ∧
    instructionFrom ('R' :: ':' :: ds) = Instruction.Right 1 ∧
    instructionFrom ('U' :: ':' :: ds) = Instruction.Up 1 ∧
    instructionFrom ('D' :: ':' :: ds) = Instruction.Down 1 := by
  have hpc : parseCount ds = none := by
    rcases hfail with rfl | h
    · rfl
    · cases ds with
      | nil => rfl
      | cons d ds2 =>
        have hne : ((d :: ds2).isEmpty) = false := rfl
        simp only [parseCount, hne, Bool.false_eq_true, if_false, hdig, if_true]
        rw [if_neg (by omega)]
  have hnd : ds.all isNd = true := all_isDigit_all_isNd hdig
  refine ⟨?_, ?_, ?_, ?_⟩
  all_goals rw [instructionFrom_colon]
  all_goals simp [isCode, hnd, hpc, codeToInstr]

/-- Witness for the amended C4: a 20-digit count overflows `usize` and
defaults to 1. -/
theorem digit_count_parse_failure_defaults_one_witness :
    instructionFrom ('L' :: ':' :: (("99999999999999999999").toList)) =
      Instruction.Left 1 ∧
    instructionFrom ('R' :: ':' :: (("99999999999999999999").toList)) =
      Instruction.Right 1 ∧
    instructionFrom ('U' :: ':' :: (("99999999999999999999").toList)) =
      Instruction.Up 1 ∧
    instructionFrom ('D' :: ':' :: (("99999999999999999999").toList)) =
      Instruction.Down 1 :=
  digit_count_parse_failure_defaults_one (("99999999999999999999").toList)
    (by decide) (Or.inr (by decide))

/-- Claim C5 (counterexample): the token `L:` — a code followed by a
colon with no digits — does not match `code [':' digits+]`, yet it does
not parse to NoOp: the regex digit group is `\d*`, so it parses to
`Left 1`. -/
theorem colon_with_no_digits_is_move :
    instructionFrom (("L:").toList) = Instruction.Left 1 ∧
    instructionFrom (("L:").toList) ≠ Instruction.Unknown := by decide

/-- Claim C5 (amended): any token not matching
`(L|R|U|D|S|_|N)(:digits*)?` — where the digit string may be empty and
a digit is any Unicode decimal digit (`\p{Nd}`), the class the regex
crate uses for `\d` — parses to NoOp, and executing it leaves the whole
session (position and output buffer) unchanged. -/
theorem unmatched_token_is_noop (s : List Char) (h : matchesToken s = false) :
    instructionFrom s = Instruction.Unknown ∧
    ∀ k : Keyboard, execute k (instructionFrom s) = some k := by
  have hparse : instructionFrom s = Instruction.Unknown := by
    rcases s with _ | ⟨c, _ | ⟨c2, rest⟩⟩
    · rfl
    · rw [instructionFrom_single]
      simp only [matchesToken] at h
      rw [h]
      simp
    · by_cases hc : c2 = ':'
      · subst hc
        rw [instructionFrom_colon]
        simp only [matchesToken] at h
        rw [h]
        simp
      · exact instructionFrom_other c c2 rest hc
  exact ⟨hparse, fun k => by rw [hparse]; rfl⟩

/-- Witness for the amended C5 at the token `Testing`. -/
theorem unmatched_token_is_noop_witness :
    instructionFrom (("Testing").toList) = Instruction.Unknown ∧
    ∀ k : Keyboard, execute k (instructionFrom (("Testing").toList)) = some k :=
  unmatched_token_is_noop (("Testing").toList) (by decide)

/-- Claim C6: from an in-range position, every single operation —
any move (`execute` on any parsed instruction), select, emit space,
emit newline, NoOp, `update_position` with any argument, and `clear` —
leaves the position within `[0,10) × [0,4)`. -/
theorem position_stays_in_range (k : Keyboard)
    (hx : k.position.1 < 10) (hy : k.position.2 < 4) :
    (∀ i k1, execute k i = some k1 → k1.position.1 < 10 ∧ k1.position.2 < 4) ∧
    (∀ p, (update_position k p).position.1 < 10 ∧
      (update_position k p).position.2 < 4) ∧
    ((clear k).position.1 < 10 ∧ (clear k).position.2 < 4) := by
  refine ⟨?_, ?_, hx, hy⟩
  · intro i k1 h
    cases i with
    | Left n =>
      rw [← Option.some.inj h]
      exact ⟨Nat.mod_lt _ (by omega), Nat.mod_lt _ (by omega)⟩
    | Right n =>
      rw [← Option.some.inj h]
      exact ⟨Nat.mod_lt _ (by omega), Nat.mod_lt _ (by omega)⟩
    | Up n =>
      rw [← Option.some.inj h]
      exact ⟨Nat.mod_lt _ (by omega), Nat.mod_lt _ (by omega)⟩
    | Down n =>
      rw [← Option.some.inj h]
      exact ⟨Nat.mod_lt _ (by omega), Nat.mod_lt _ (by omega)⟩
    | Space =>
      rw [← Option.some.inj h]
      exact ⟨hx, hy⟩
    | NewLine =>
      rw [← Option.some.inj h]
      exact ⟨hx, hy⟩
    | Unknown =>
      rw [← Option.some.inj h]
      exact ⟨hx, hy⟩
    | Select =>
      cases hc : getKey k.keyboard_layout k.position.2 k.position.1 with
      | none =>
        rw [show execute k Instruction.Select =
          (getKey k.keyboard_layout k.position.2 k.position.1).map
            (selected_key k) from rfl, hc] at h
        exact Option.noConfusion h
      | some c =>
        rw [show execute k Instruction.Select =
          (getKey k.keyboard_layout k.position.2 k.position.1).map
            (selected_key k) from rfl, hc] at h
        simp only [Option.map_some'] at h
        rw [← Option.some.inj h]
        exact ⟨hx, hy⟩
  · intro p
    exact ⟨Nat.mod_lt _ (by omega), Nat.mod_lt _ (by omega)⟩

/-- Witness for C6: resetting the position to the out-of-range pair
`(123, 456)` re-wraps it into range. -/
theorem position_stays_in_range_witness :
    (update_position ⟨KEYS, (4, 2), []⟩ (123, 456)).position.1 < 10 ∧
    (update_position ⟨KEYS, (4, 2), []⟩ (123, 456)).position.2 < 4 :=
  (position_stays_in_range ⟨KEYS, (4, 2), []⟩ (by decide) (by decide)).2.1 (123, 456)

/-- Claim C7: synthesizing `HELLO` from `(4, 2)` on the reference grid
yields exactly `R:1,S,L:3,U:1,S,R:6,D:1,S,S,U:1,S`, with no trailing
separator. -/
theorem synthesize_hello_exact :
    (generate_instructions ⟨KEYS, (4, 2), []⟩ (("HELLO").toList)).1 =
      ("R:1,S,L:3,U:1,S,R:6,D:1,S,S,U:1,S").toList := by decide

/-- Claim C8: `clear` followed by `render` yields the empty string for
any prior state, `update_position` (reset position) leaves the output
buffer unchanged, and `clear` leaves the position unchanged. -/
theorem clear_and_reset_frame (k : Keyboard) (p : Position) :
    render (clear k) = [] ∧
    (update_position k p).selected_keys = k.selected_keys ∧
    (clear k).position = k.position :=
  ⟨rfl, rfl, rfl⟩

/-- Claim C9: `find_position` returns the position of the first
occurrence of a character in row-major scan order (row 0 before row 1,
left to right within a row), and `none` when the character is absent
from the grid. -/
theorem find_position_first_occurrence (k : Keyboard) (c : Char) :
    ((find_position k c).1 = none ↔ ∀ row ∈ k.keyboard_layout, c ∉ row) ∧
    (∀ x y, (find_position k c).1 = some (x, y) →
      ∃ row, k.keyboard_layout.get? y = some row ∧ row.get? x = some c ∧
        (∀ x1, x1 < x → row.get? x1 ≠ some c) ∧
        (∀ y1, y1 < y → ∀ row1, k.keyboard_layout.get? y1 = some row1 →
          c ∉ row1)) := by
  refine ⟨find_position_rows_none_iff c k.keyboard_layout, ?_⟩
  intro x y h
  obtain ⟨⟨row, h1, h2, h3⟩, h4⟩ :=
    find_position_rows_some c k.keyboard_layout x y h
  exact ⟨row, h1, h2, h3, h4⟩

/-- Witness for C9: `H` is first found at `(5, 2)` on the reference
grid. -/
theorem find_position_first_occurrence_witness :
    ∃ row, (⟨KEYS, (4, 2), []⟩ : Keyboard).keyboard_layout.get? 2 = some row ∧
      row.get? 5 = some 'H' ∧
      (∀ x1, x1 < 5 → row.get? x1 ≠ some 'H') ∧
      (∀ y1, y1 < 2 → ∀ row1,
        (⟨KEYS, (4, 2), []⟩ : Keyboard).keyboard_layout.get? y1 = some row1 →
        'H' ∉ row1) :=
  (find_position_first_occurrence ⟨KEYS, (4, 2), []⟩ 'H').2 5 2 (by decide)

/-- Claim C10: synthesis does not mutate the session.
`generate_instructions`, threaded in state-passing style, returns the
keyboard — in particular its position and its output buffer — exactly
as it was. -/
theorem generate_instructions_no_mutation (k : Keyboard) (text : List Char) :
    (generate_instructions k text).2 = k ∧
    (generate_instructions k text).2.position = k.position ∧
    (generate_instructions k text).2.selected_keys = k.selected_keys := by
  have h : (generate_instructions k text).2 = k := buildCharPositions_snd text k []
  exact ⟨h, by rw [h], by rw [h]⟩

end KeyboardMadness
